import Mathlib

/-
Shallow embedding of the LRU cache engine from src/lru/src/lru/lru_cache.rs
and of the cache-mode selection in src/lru/src/http/mod.rs.

The cache state is modelled by its observable content: the recency list of
key/value pairs in most-recently-used-first order (the walk of next pointers
from the head sigil to the tail sigil), together with the capacity. The hash
index of the Rust code maps exactly the keys present on that list to their
nodes, so every public operation is a function of this state.
-/

namespace LRUSpec

variable {K V : Type} [DecidableEq K]

/-- Cache state: the recency list in MRU-first order plus the capacity
(the value of the NonZeroUsize cap field). -/
structure LRUCache (K V : Type) where
  list : List (K × V)
  cap : Nat
deriving DecidableEq

/-- Embedding of the hash-map lookup map.get: the value stored under key k,
if present. -/
def lookupVal : List (K × V) → K → Option V
  | [], _ => none
  | p :: ps, k => if p.1 = k then some p.2 else lookupVal ps k

/-- Embedding of detaching the (unique) node that holds key k from the
recency list (map.remove plus detach). -/
def removeKey : List (K × V) → K → List (K × V)
  | [], _ => []
  | p :: ps, k => if p.1 = k then ps else p :: removeKey ps k

/-- Keys of the recency list in MRU-first order. -/
def keysOf (l : List (K × V)) : List K := l.map Prod.fst

/-- Value of usize MAX, the capacity used by the unbounded constructors. -/
def USIZE_MAX : Nat := 2 ^ 64 - 1

/-- Embedding of LRUCache::construct: an empty list between the two sigils. -/
def LRUCache.construct (cap : Nat) : LRUCache K V :=
  { list := [], cap := cap }

/-- Embedding of LRUCache::new. -/
def LRUCache.new (cap : Nat) : LRUCache K V := LRUCache.construct cap

/-- Embedding of LRUCache::unbounded. -/
def LRUCache.unbounded : LRUCache K V := LRUCache.construct USIZE_MAX

/-- Embedding of LRUCache::with_hasher: the hasher does not affect the
observable state. -/
def LRUCache.with_hasher (cap : Nat) : LRUCache K V := LRUCache.construct cap

/-- Embedding of Cache::len: the size of the hash index, which equals the
length of the recency list. -/
def LRUCache.len (c : LRUCache K V) : Nat := c.list.length

/-- Embedding of LRUCache::capturing_put. On a hit the value is swapped into
the existing node and the node is moved to the front, returning the pair of
the argument key and the previous value. On a miss, replace_or_create_node
either recycles the tail-adjacent node (when len = cap, removing it from the
index and reading out its old key and value) or allocates a fresh node; the
node is attached at the front and indexed, and the replaced pair is returned
only when capture is true. -/
def LRUCache.capturing_put (c : LRUCache K V) (k : K) (v : V) (capture : Bool) :
    Option (K × V) × LRUCache K V :=
  match lookupVal c.list k with
  | some oldv => (some (k, oldv), { c with list := (k, v) :: removeKey c.list k })
  | none =>
    if c.list.length = c.cap then
      match c.list.getLast? with
      | some last =>
        ((if capture then some last else none),
         { c with list := (k, v) :: c.list.dropLast })
      | none => (none, { c with list := [(k, v)] })
    else
      (none, { c with list := (k, v) :: c.list })

/-- Embedding of Cache::put for LRUCache: capturing_put with capture false,
keeping only the value component of the returned pair. -/
def LRUCache.put (c : LRUCache K V) (k : K) (v : V) : Option V × LRUCache K V :=
  let r := c.capturing_put k v false
  (r.1.map Prod.snd, r.2)

/-- Embedding of Cache::push for LRUCache: capturing_put with capture true. -/
def LRUCache.push (c : LRUCache K V) (k : K) (v : V) :
    Option (K × V) × LRUCache K V :=
  c.capturing_put k v true

/-- Embedding of Cache::get for LRUCache: on a hit, detach the node and
attach it at the front, returning its value. -/
def LRUCache.get (c : LRUCache K V) (k : K) : Option V × LRUCache K V :=
  match lookupVal c.list k with
  | some v => (some v, { c with list := (k, v) :: removeKey c.list k })
  | none => (none, c)

/-- Embedding of Cache::get_mut for LRUCache: the same state change as get. -/
def LRUCache.get_mut (c : LRUCache K V) (k : K) : Option V × LRUCache K V :=
  match lookupVal c.list k with
  | some v => (some v, { c with list := (k, v) :: removeKey c.list k })
  | none => (none, c)

/-- Embedding of Cache::get_or_insert for LRUCache. The factory FnOnce is
modelled as a state-threading function f over an arbitrary state type, so
that the number of invocations is observable: the source calls f exactly in
the miss branch. On a hit the node is promoted and its value returned with
the factory state untouched; on a miss f is applied once, the result
inserted through replace_or_create_node (the replaced pair is discarded),
and the node is attached at the front and indexed. -/
def LRUCache.get_or_insert {S : Type} (c : LRUCache K V) (k : K)
    (f : S → V × S) (s : S) : V × LRUCache K V × S :=
  match lookupVal c.list k with
  | some v => (v, { c with list := (k, v) :: removeKey c.list k }, s)
  | none =>
    let r := f s
    if c.list.length = c.cap then
      match c.list.getLast? with
      | some _ => (r.1, { c with list := (k, r.1) :: c.list.dropLast }, r.2)
      | none => (r.1, { c with list := [(k, r.1)] }, r.2)
    else
      (r.1, { c with list := (k, r.1) :: c.list }, r.2)

/-- Embedding of Cache::get_or_insert_mut for LRUCache: the same state change
as get_or_insert. -/
def LRUCache.get_or_insert_mut {S : Type} (c : LRUCache K V) (k : K)
    (f : S → V × S) (s : S) : V × LRUCache K V × S :=
  c.get_or_insert k f s

/-- Embedding of Cache::peek for LRUCache: index lookup only, no state
change. -/
def LRUCache.peek (c : LRUCache K V) (k : K) : Option V := lookupVal c.list k

/-- Embedding of Cache::peek_mut for LRUCache: index lookup only, no state
change apart from writes performed by the caller through the returned
reference. -/
def LRUCache.peek_mut (c : LRUCache K V) (k : K) : Option V := lookupVal c.list k

/-- Embedding of Cache::peek_last for LRUCache: the entry of the node just
before the tail sigil, if any. -/
def LRUCache.peek_last (c : LRUCache K V) : Option (K × V) := c.list.getLast?

/-- Embedding of Cache::contains for LRUCache: map.contains_key. -/
def LRUCache.contains (c : LRUCache K V) (k : K) : Bool :=
  (lookupVal c.list k).isSome

/-- Embedding of Cache::pop for LRUCache: remove the index entry, detach the
node, drop the key and return the value. -/
def LRUCache.pop (c : LRUCache K V) (k : K) : Option V × LRUCache K V :=
  match lookupVal c.list k with
  | some v => (some v, { c with list := removeKey c.list k })
  | none => (none, c)

/-- Embedding of Cache::pop_entry for LRUCache: like pop but returning both
key and value. -/
def LRUCache.pop_entry (c : LRUCache K V) (k : K) :
    Option (K × V) × LRUCache K V :=
  match lookupVal c.list k with
  | some v => (some (k, v), { c with list := removeKey c.list k })
  | none => (none, c)

/-- Embedding of Cache::pop_last for LRUCache (detach_last): if the node
before the tail sigil is not the head sigil, remove it from the index,
detach it and return its entry. -/
def LRUCache.pop_last (c : LRUCache K V) : Option (K × V) × LRUCache K V :=
  match c.list.getLast? with
  | some p => (some p, { c with list := c.list.dropLast })
  | none => (none, c)

/-- Embedding of Cache::promote for LRUCache: on a hit, detach and attach at
the front; no-op on a miss. -/
def LRUCache.promote (c : LRUCache K V) (k : K) : LRUCache K V :=
  match lookupVal c.list k with
  | some v => { c with list := (k, v) :: removeKey c.list k }
  | none => c

/-- Embedding of Cache::demote for LRUCache: on a hit, detach and attach just
before the tail sigil (attach_last); no-op on a miss. -/
def LRUCache.demote (c : LRUCache K V) (k : K) : LRUCache K V :=
  match lookupVal c.list k with
  | some v => { c with list := removeKey c.list k ++ [(k, v)] }
  | none => c

/-- Embedding of the while loop of Cache::resize and Cache::clear: pop_last
while the list is longer than n. -/
def popWhileGT (l : List (K × V)) (n : Nat) : List (K × V) :=
  if n < l.length then popWhileGT l.dropLast n else l
termination_by l.length
decreasing_by
  simp only [List.length_dropLast]
  omega

/-- Embedding of Cache::resize for LRUCache: no-op when the new capacity
equals the current one, otherwise pop_last until len fits and set cap. -/
def LRUCache.resize (c : LRUCache K V) (n : Nat) : LRUCache K V :=
  if n = c.cap then c
  else { list := popWhileGT c.list n, cap := n }

/-- Embedding of Cache::clear for LRUCache: pop_last until empty; cap is
unchanged. -/
def LRUCache.clear (c : LRUCache K V) : LRUCache K V :=
  { c with list := popWhileGT c.list 0 }

/-- Public mutating operations of the Cache trait, as exercised by an
operation sequence. The get_or_insert operations carry the value their
factory produces. The resize operation carries the value of its NonZeroUsize
argument. -/
inductive Op (K V : Type) where
  | put (k : K) (v : V)
  | push (k : K) (v : V)
  | get (k : K)
  | getMut (k : K)
  | getOrInsert (k : K) (v : V)
  | getOrInsertMut (k : K) (v : V)
  | pop (k : K)
  | popEntry (k : K)
  | popLast
  | promote (k : K)
  | demote (k : K)
  | resize (n : Nat)
  | clear

/-- State transition of one mutating operation. -/
def step (c : LRUCache K V) : Op K V → LRUCache K V
  | .put k v => (c.put k v).2
  | .push k v => (c.push k v).2
  | .get k => (c.get k).2
  | .getMut k => (c.get_mut k).2
  | .getOrInsert k v => (c.get_or_insert k (fun s : Unit => (v, s)) ()).2.1
  | .getOrInsertMut k v => (c.get_or_insert_mut k (fun s : Unit => (v, s)) ()).2.1
  | .pop k => (c.pop k).2
  | .popEntry k => (c.pop_entry k).2
  | .popLast => c.pop_last.2
  | .promote k => c.promote k
  | .demote k => c.demote k
  | .resize n => c.resize n
  | .clear => c.clear

/-- Run a sequence of mutating operations. -/
def runOps (c : LRUCache K V) (ops : List (Op K V)) : LRUCache K V :=
  ops.foldl step c

/-- The non-reordering observation operations. peekMutWrite k v models the
caller writing v through the mutable reference returned by peek_mut. -/
inductive ReadOp (K V : Type) where
  | peek (k : K)
  | peekMut (k : K)
  | contains (k : K)
  | peekLast
  | peekMutWrite (k : K) (v : V)

/-- Overwrite in place the value stored under key k, the effect of a write
through the reference returned by peek_mut. -/
def setValue (l : List (K × V)) (k : K) (v : V) : List (K × V) :=
  l.map fun p => if p.1 = k then (p.1, v) else p

/-- State effect of an observation operation: peek, peek_mut, contains and
peek_last read without touching the cache; a write through the reference of
a successful peek_mut changes only the value stored under that key. -/
def readStep (c : LRUCache K V) : ReadOp K V → LRUCache K V
  | .peek _ => c
  | .peekMut _ => c
  | .contains _ => c
  | .peekLast => c
  | .peekMutWrite k v =>
    if (lookupVal c.list k).isSome then { c with list := setValue c.list k v }
    else c

/-- One step of an interleaved run: either a mutating operation or an
observation. -/
inductive Step (K V : Type) where
  | mutOp (op : Op K V)
  | readOp (r : ReadOp K V)

/-- Run an interleaved sequence of mutating and observation operations. -/
def runSteps (c : LRUCache K V) (l : List (Step K V)) : LRUCache K V :=
  l.foldl (fun c s => match s with
    | .mutOp op => step c op
    | .readOp r => readStep c r) c

/-- The mutating operations of an interleaved sequence, in order. -/
def mutsOf (l : List (Step K V)) : List (Op K V) :=
  l.filterMap fun s => match s with
    | .mutOp op => some op
    | .readOp _ => none

/-- The recency order of the keys, MRU first. -/
def keyOrder (c : LRUCache K V) : List K := keysOf c.list

/-- Remove the first occurrence of k from a key list. -/
def removeKeyK : List K → K → List K
  | [], _ => []
  | a :: l, k => if a = k then l else a :: removeKeyK l k

/-- Abstract effect of any of the inserting operations on the key order. -/
def insertKeys (s : List K × Nat) (k : K) : List K × Nat :=
  if k ∈ s.1 then (k :: removeKeyK s.1 k, s.2)
  else if s.1.length = s.2 then
    match s.1.getLast? with
    | some _ => (k :: s.1.dropLast, s.2)
    | none => ([k], s.2)
  else (k :: s.1, s.2)

/-- Abstract transition on (key order, capacity): the evolution of the
recency order of keys under one mutating operation, independent of the
stored values. -/
def keysStep (s : List K × Nat) : Op K V → List K × Nat
  | .put k _ | .push k _ | .getOrInsert k _ | .getOrInsertMut k _ =>
    insertKeys s k
  | .get k | .getMut k | .promote k =>
    if k ∈ s.1 then (k :: removeKeyK s.1 k, s.2) else s
  | .pop k | .popEntry k =>
    if k ∈ s.1 then (removeKeyK s.1 k, s.2) else s
  | .popLast => (s.1.dropLast, s.2)
  | .demote k =>
    if k ∈ s.1 then (removeKeyK s.1 k ++ [k], s.2) else s
  | .resize n => if n = s.2 then s else (s.1.take n, n)
  | .clear => ([], s.2)

/-- State of the by-move iterator IntoIter: it owns the cache and each call
to next is a pop_last call. -/
structure IntoIterC (K V : Type) where
  cache : LRUCache K V

/-- Embedding of the next method of IntoIter: self.cache.pop_last(). -/
def IntoIterC.next (it : IntoIterC K V) : Option (K × V) × IntoIterC K V :=
  let r := it.cache.pop_last
  (r.1, ⟨r.2⟩)

/-- Collect the output stream of the by-move iterator, driven by enough fuel
to exhaust the cache. -/
def intoIterAux : Nat → IntoIterC K V → List (K × V)
  | 0, _ => []
  | fuel + 1, it =>
    match it.next with
    | (none, _) => []
    | (some p, it2) => p :: intoIterAux fuel it2

/-- The full output sequence of into_iter on a cache. -/
def intoIterList (c : LRUCache K V) : List (K × V) :=
  intoIterAux c.list.length ⟨c⟩

/-- State of the forward iterator Iter: a remaining count and the chain of
nodes from the forward cursor onwards. -/
structure Iter (K V : Type) where
  len : Nat
  elems : List (K × V)

/-- Embedding of LRUCache::iter: the cursor starts at head.next with count
len. -/
def LRUCache.iter (c : LRUCache K V) : Iter K V := ⟨c.list.length, c.list⟩

/-- Embedding of the next method of Iter: nothing once len is zero,
otherwise the entry under the cursor, advancing the cursor. -/
def Iter.next (it : Iter K V) : Option (K × V) × Iter K V :=
  if it.len = 0 then (none, it)
  else
    match it.elems with
    | [] => (none, it)
    | p :: ps => (some p, ⟨it.len - 1, ps⟩)

/-- Collect the output stream of the forward iterator. -/
def iterAux : Nat → Iter K V → List (K × V)
  | 0, _ => []
  | fuel + 1, it =>
    match it.next with
    | (none, _) => []
    | (some p, it2) => p :: iterAux fuel it2

/-- The full output sequence of the forward iterator of a cache. -/
def iterList (c : LRUCache K V) : List (K × V) := iterAux c.iter.len c.iter

/-- Modelled from the spec: LRUCache::storage, the constructor invoked by
axum_serve for the capacity cache_mode, is not defined under src (only its
call site in src/lru/src/http/mod.rs exists). Per the spec, capacity mode
has no distinct implementation and behaves the same as item mode: a bounded
cache of cache_size items. -/
def LRUCache.storage (cap : Nat) : LRUCache K V := LRUCache.new cap

/-- Embedding of the cache_mode match in axum_serve
(src/lru/src/http/mod.rs): item and default build a bounded cache of
cache_size items, capacity builds LRUCache::storage, unlimited builds an
unbounded cache, anything else a bounded cache of cache_size items. -/
def selectCache (mode : String) (size : Nat) : LRUCache K V :=
  match mode with
  | "item" | "default" => LRUCache.new size
  | "capacity" => LRUCache.storage size
  | "unlimited" => LRUCache.unbounded
  | _ => LRUCache.new size

/-! Basic lemmas about the list-level helpers. -/

theorem keysOf_nil : keysOf ([] : List (K × V)) = [] := rfl

theorem keysOf_cons (p : K × V) (ps : List (K × V)) :
    keysOf (p :: ps) = p.1 :: keysOf ps := rfl

theorem length_keysOf (l : List (K × V)) : (keysOf l).length = l.length :=
  List.length_map l Prod.fst

theorem lookupVal_eq_none_iff (l : List (K × V)) (k : K) :
    lookupVal l k = none ↔ k ∉ keysOf l := by
  induction l with
  | nil => simp [lookupVal, keysOf]
  | cons p ps ih =>
    simp only [lookupVal, keysOf_cons, List.mem_cons]
    by_cases h : p.1 = k
    · simp [h]
    · rw [if_neg h, ih]
      have hne : ¬k = p.1 := fun hk => h hk.symm
      simp [not_or, hne]

theorem mem_keysOf_of_lookupVal (l : List (K × V)) (k : K) (v : V)
    (h : lookupVal l k = some v) : k ∈ keysOf l := by
  by_contra hk
  rw [← lookupVal_eq_none_iff] at hk
  rw [h] at hk
  exact Option.noConfusion hk

theorem keysOf_removeKey (l : List (K × V)) (k : K) :
    keysOf (removeKey l k) = removeKeyK (keysOf l) k := by
  induction l with
  | nil => rfl
  | cons p ps ih =>
    simp only [removeKey, keysOf_cons, removeKeyK]
    by_cases h : p.1 = k
    · simp [h, keysOf]
    · rw [if_neg h, if_neg h, keysOf_cons, ih]
      rfl

theorem keysOf_dropLast (l : List (K × V)) :
    keysOf l.dropLast = (keysOf l).dropLast := List.map_dropLast _ _

theorem keysOf_take (l : List (K × V)) (n : Nat) :
    keysOf (l.take n) = (keysOf l).take n := List.map_take _ _ _

theorem getLast?_keysOf (l : List (K × V)) :
    (keysOf l).getLast? = l.getLast?.map Prod.fst := List.getLast?_map _ _

theorem keysOf_setValue (l : List (K × V)) (k : K) (v : V) :
    keysOf (setValue l k v) = keysOf l := by
  induction l with
  | nil => rfl
  | cons p ps ih =>
    simp only [setValue, List.map_cons, keysOf_cons] at *
    by_cases h : p.1 = k <;> simp [h, ih]

theorem length_removeKey_add_one (l : List (K × V)) (k : K) (v : V)
    (h : lookupVal l k = some v) : (removeKey l k).length + 1 = l.length := by
  induction l with
  | nil => exact Option.noConfusion h
  | cons p ps ih =>
    simp only [lookupVal] at h
    simp only [removeKey]
    by_cases hp : p.1 = k
    · simp [hp]
    · rw [if_neg hp] at h ⊢
      simp only [List.length_cons]
      have := ih h
      omega

theorem popWhileGT_eq_take_aux (m : Nat) :
    ∀ (l : List (K × V)) (n : Nat), l.length ≤ m → popWhileGT l n = l.take n := by
  induction m with
  | zero =>
    intro l n h
    have hl : l = [] := List.eq_nil_of_length_eq_zero (Nat.le_zero.mp h)
    subst hl
    rw [popWhileGT]
    simp
  | succ m ih =>
    intro l n h
    rw [popWhileGT]
    by_cases hn : n < l.length
    · rw [if_pos hn]
      rw [ih l.dropLast n (by rw [List.length_dropLast]; omega)]
      rw [List.dropLast_eq_take, List.take_take]
      congr 1
      omega
    · rw [if_neg hn]
      exact (List.take_of_length_le (by omega)).symm

theorem popWhileGT_eq_take (l : List (K × V)) (n : Nat) :
    popWhileGT l n = l.take n :=
  popWhileGT_eq_take_aux l.length l n le_rfl

/-! Simulation of the concrete operations by the abstract key-order
transition. -/

theorem get_snd_eq_promote (c : LRUCache K V) (k : K) :
    (c.get k).2 = c.promote k := by
  unfold LRUCache.get LRUCache.promote
  cases h : lookupVal c.list k <;> simp [h]

theorem get_mut_snd_eq_promote (c : LRUCache K V) (k : K) :
    (c.get_mut k).2 = c.promote k := by
  unfold LRUCache.get_mut LRUCache.promote
  cases h : lookupVal c.list k <;> simp [h]

theorem pop_entry_snd_eq_pop_snd (c : LRUCache K V) (k : K) :
    (c.pop_entry k).2 = (c.pop k).2 := by
  unfold LRUCache.pop_entry LRUCache.pop
  cases h : lookupVal c.list k <;> simp [h]

theorem keysOf_append (l1 l2 : List (K × V)) :
    keysOf (l1 ++ l2) = keysOf l1 ++ keysOf l2 := List.map_append _ _ _

theorem insertKeys_snd (s : List K × Nat) (k : K) : (insertKeys s k).2 = s.2 := by
  unfold insertKeys
  by_cases h : k ∈ s.1
  · simp [h]
  · simp only [if_neg h]
    by_cases hl : s.1.length = s.2
    · simp only [if_pos hl]
      cases hg : s.1.getLast? <;> simp
    · simp [if_neg hl]

theorem capturing_put_keys (c : LRUCache K V) (k : K) (v : V) (b : Bool) :
    keysOf ((c.capturing_put k v b).2).list = (insertKeys (keysOf c.list, c.cap) k).1 ∧
    ((c.capturing_put k v b).2).cap = c.cap := by
  unfold LRUCache.capturing_put insertKeys
  cases h : lookupVal c.list k with
  | some v0 =>
    have hk : k ∈ keysOf c.list := mem_keysOf_of_lookupVal _ _ _ h
    simp [h, hk, keysOf_cons, keysOf_removeKey]
  | none =>
    have hk : k ∉ keysOf c.list := (lookupVal_eq_none_iff _ _).1 h
    simp only [h, if_neg hk, length_keysOf]
    by_cases hl : c.list.length = c.cap
    · simp only [if_pos hl, getLast?_keysOf]
      cases hg : c.list.getLast? with
      | some p => simp [hg, keysOf_cons, keysOf_dropLast]
      | none => simp [hg, keysOf]
    · simp [if_neg hl, keysOf_cons]

theorem get_or_insert_keys {S : Type} (c : LRUCache K V) (k : K)
    (f : S → V × S) (s : S) :
    keysOf ((c.get_or_insert k f s).2.1).list = (insertKeys (keysOf c.list, c.cap) k).1 ∧
    ((c.get_or_insert k f s).2.1).cap = c.cap := by
  unfold LRUCache.get_or_insert insertKeys
  cases h : lookupVal c.list k with
  | some v0 =>
    have hk : k ∈ keysOf c.list := mem_keysOf_of_lookupVal _ _ _ h
    simp [h, hk, keysOf_cons, keysOf_removeKey]
  | none =>
    have hk : k ∉ keysOf c.list := (lookupVal_eq_none_iff _ _).1 h
    simp only [h, if_neg hk, length_keysOf]
    by_cases hl : c.list.length = c.cap
    · simp only [if_pos hl, getLast?_keysOf]
      cases hg : c.list.getLast? with
      | some p => simp [hg, keysOf_cons, keysOf_dropLast]
      | none => simp [hg, keysOf]
    · simp [if_neg hl, keysOf_cons]

theorem keys_sim (c : LRUCache K V) (op : Op K V) :
    (keyOrder (step c op), (step c op).cap) = keysStep (keyOrder c, c.cap) op := by
  cases op with
  | put k v =>
    have h := capturing_put_keys c k v false
    simp only [step, LRUCache.put, keysStep, keyOrder]
    rw [Prod.ext_iff]
    exact ⟨h.1, h.2.trans (insertKeys_snd (keysOf c.list, c.cap) k).symm⟩
  | push k v =>
    have h := capturing_put_keys c k v true
    simp only [step, LRUCache.push, keysStep, keyOrder]
    rw [Prod.ext_iff]
    exact ⟨h.1, h.2.trans (insertKeys_snd (keysOf c.list, c.cap) k).symm⟩
  | getOrInsert k v =>
    have h := get_or_insert_keys c k (fun s : Unit => (v, s)) ()
    simp only [step, keysStep, keyOrder]
    rw [Prod.ext_iff]
    exact ⟨h.1, h.2.trans (insertKeys_snd (keysOf c.list, c.cap) k).symm⟩
  | getOrInsertMut k v =>
    have h := get_or_insert_keys c k (fun s : Unit => (v, s)) ()
    simp only [step, LRUCache.get_or_insert_mut, keysStep, keyOrder]
    rw [Prod.ext_iff]
    exact ⟨h.1, h.2.trans (insertKeys_snd (keysOf c.list, c.cap) k).symm⟩
  | get k =>
    simp only [step, keysStep, keyOrder, get_snd_eq_promote]
    unfold LRUCache.promote
    cases h : lookupVal c.list k with
    | some v =>
      have hk : k ∈ keysOf c.list := mem_keysOf_of_lookupVal _ _ _ h
      simp [hk, keysOf_cons, keysOf_removeKey]
    | none =>
      have hk : k ∉ keysOf c.list := (lookupVal_eq_none_iff _ _).1 h
      simp [hk]
  | getMut k =>
    simp only [step, keysStep, keyOrder, get_mut_snd_eq_promote]
    unfold LRUCache.promote
    cases h : lookupVal c.list k with
    | some v =>
      have hk : k ∈ keysOf c.list := mem_keysOf_of_lookupVal _ _ _ h
      simp [hk, keysOf_cons, keysOf_removeKey]
    | none =>
      have hk : k ∉ keysOf c.list := (lookupVal_eq_none_iff _ _).1 h
      simp [hk]
  | promote k =>
    simp only [step, keysStep, keyOrder]
    unfold LRUCache.promote
    cases h : lookupVal c.list k with
    | some v =>
      have hk : k ∈ keysOf c.list := mem_keysOf_of_lookupVal _ _ _ h
      simp [hk, keysOf_cons, keysOf_removeKey]
    | none =>
      have hk : k ∉ keysOf c.list := (lookupVal_eq_none_iff _ _).1 h
      simp [hk]
  | pop k =>
    simp only [step, keysStep, keyOrder]
    unfold LRUCache.pop
    cases h : lookupVal c.list k with
    | some v =>
      have hk : k ∈ keysOf c.list := mem_keysOf_of_lookupVal _ _ _ h
      simp [hk, keysOf_removeKey]
    | none =>
      have hk : k ∉ keysOf c.list := (lookupVal_eq_none_iff _ _).1 h
      simp [hk]
  | popEntry k =>
    simp only [step, keysStep, keyOrder, pop_entry_snd_eq_pop_snd]
    unfold LRUCache.pop
    cases h : lookupVal c.list k with
    | some v =>
      have hk : k ∈ keysOf c.list := mem_keysOf_of_lookupVal _ _ _ h
      simp [hk, keysOf_removeKey]
    | none =>
      have hk : k ∉ keysOf c.list := (lookupVal_eq_none_iff _ _).1 h
      simp [hk]
  | popLast =>
    simp only [step, keysStep, keyOrder]
    unfold LRUCache.pop_last
    cases h : c.list.getLast? with
    | some p => simp [keysOf_dropLast]
    | none =>
      have hl : c.list = [] := List.getLast?_eq_none_iff.1 h
      simp [hl, keysOf]
  | demote k =>
    simp only [step, keysStep, keyOrder]
    unfold LRUCache.demote
    cases h : lookupVal c.list k with
    | some v =>
      have hk : k ∈ keysOf c.list := mem_keysOf_of_lookupVal _ _ _ h
      simp only [if_pos hk, Prod.mk.injEq]
      refine ⟨?_, trivial⟩
      show keysOf (removeKey c.list k ++ [(k, v)]) = removeKeyK (keysOf c.list) k ++ [k]
      rw [keysOf_append, keysOf_removeKey]
      rfl
    | none =>
      have hk : k ∉ keysOf c.list := (lookupVal_eq_none_iff _ _).1 h
      simp [hk]
  | resize n =>
    simp only [step, keysStep, keyOrder]
    unfold LRUCache.resize
    by_cases h : n = c.cap
    · simp [h]
    · simp [h, popWhileGT_eq_take, keysOf_take]
  | clear =>
    simp only [step, keysStep, keyOrder]
    unfold LRUCache.clear
    simp [popWhileGT_eq_take, keysOf]

theorem runOps_keys (ops : List (Op K V)) (c : LRUCache K V) :
    (keyOrder (runOps c ops), (runOps c ops).cap) =
      ops.foldl keysStep (keyOrder c, c.cap) := by
  induction ops generalizing c with
  | nil => rfl
  | cons op ops ih =>
    show (keyOrder (runOps (step c op) ops), (runOps (step c op) ops).cap) =
      ops.foldl keysStep (keysStep (keyOrder c, c.cap) op)
    rw [← keys_sim]
    exact ih (step c op)

theorem readStep_keys (c : LRUCache K V) (r : ReadOp K V) :
    keyOrder (readStep c r) = keyOrder c ∧ (readStep c r).cap = c.cap := by
  cases r with
  | peek k => exact ⟨rfl, rfl⟩
  | peekMut k => exact ⟨rfl, rfl⟩
  | contains k => exact ⟨rfl, rfl⟩
  | peekLast => exact ⟨rfl, rfl⟩
  | peekMutWrite k v =>
    unfold readStep
    by_cases h : (lookupVal c.list k).isSome
    · simp only [if_pos h]
      exact ⟨keysOf_setValue _ _ _, trivial⟩
    · simp [h]

theorem runSteps_keys (l : List (Step K V)) (c : LRUCache K V) :
    (keyOrder (runSteps c l), (runSteps c l).cap) =
      (mutsOf l).foldl keysStep (keyOrder c, c.cap) := by
  induction l generalizing c with
  | nil => rfl
  | cons s l ih =>
    cases s with
    | mutOp op =>
      show (keyOrder (runSteps (step c op) l), (runSteps (step c op) l).cap) =
        (mutsOf l).foldl keysStep (keysStep (keyOrder c, c.cap) op)
      rw [← keys_sim]
      exact ih (step c op)
    | readOp r =>
      have h := readStep_keys c r
      show (keyOrder (runSteps (readStep c r) l), (runSteps (readStep c r) l).cap) =
        (mutsOf l).foldl keysStep (keyOrder c, c.cap)
      rw [← h.1, ← h.2]
      exact ih (readStep c r)

/-! Preservation of the size bound. -/

/-- Validity of an operation argument: resize takes a NonZeroUsize, every
other operation is unconstrained. -/
def opValid : Op K V → Prop
  | .resize n => 0 < n
  | _ => True

theorem length_removeKeyK (ks : List K) (k : K) (h : k ∈ ks) :
    (removeKeyK ks k).length + 1 = ks.length := by
  induction ks with
  | nil => exact absurd h (List.not_mem_nil k)
  | cons a l ih =>
    simp only [removeKeyK]
    by_cases ha : a = k
    · simp [ha]
    · rw [if_neg ha]
      have hm : k ∈ l := by
        rcases List.mem_cons.1 h with h1 | h1
        · exact absurd h1.symm ha
        · exact h1
      simp only [List.length_cons]
      have := ih hm
      omega

theorem insertKeys_invariant (s : List K × Nat) (k : K)
    (h1 : s.1.length ≤ s.2) (h2 : 0 < s.2) :
    (insertKeys s k).1.length ≤ (insertKeys s k).2 ∧ 0 < (insertKeys s k).2 := by
  unfold insertKeys
  by_cases hm : k ∈ s.1
  · rw [if_pos hm]
    refine ⟨?_, h2⟩
    simp only [List.length_cons]
    have := length_removeKeyK s.1 k hm
    omega
  · rw [if_neg hm]
    by_cases hl : s.1.length = s.2
    · rw [if_pos hl]
      cases hg : s.1.getLast? with
      | some p =>
        refine ⟨?_, h2⟩
        simp only [List.length_cons, List.length_dropLast]
        have hne : s.1 ≠ [] := by
          intro he
          rw [he] at hg
          exact Option.noConfusion hg
        have hpos : 0 < s.1.length := List.length_pos.2 hne
        omega
      | none =>
        refine ⟨?_, h2⟩
        simp only [List.length_cons, List.length_nil]
        omega
    · rw [if_neg hl]
      refine ⟨?_, h2⟩
      simp only [List.length_cons]
      omega

theorem keysStep_invariant (s : List K × Nat) (op : Op K V)
    (h1 : s.1.length ≤ s.2) (h2 : 0 < s.2) (hop : opValid op) :
    (keysStep s op).1.length ≤ (keysStep s op).2 ∧ 0 < (keysStep s op).2 := by
  cases op with
  | put k v => exact insertKeys_invariant s k h1 h2
  | push k v => exact insertKeys_invariant s k h1 h2
  | getOrInsert k v => exact insertKeys_invariant s k h1 h2
  | getOrInsertMut k v => exact insertKeys_invariant s k h1 h2
  | get k =>
    simp only [keysStep]
    by_cases hm : k ∈ s.1
    · rw [if_pos hm]
      refine ⟨?_, h2⟩
      simp only [List.length_cons]
      have := length_removeKeyK s.1 k hm
      omega
    · rw [if_neg hm]
      exact ⟨h1, h2⟩
  | getMut k =>
    simp only [keysStep]
    by_cases hm : k ∈ s.1
    · rw [if_pos hm]
      refine ⟨?_, h2⟩
      simp only [List.length_cons]
      have := length_removeKeyK s.1 k hm
      omega
    · rw [if_neg hm]
      exact ⟨h1, h2⟩
  | promote k =>
    simp only [keysStep]
    by_cases hm : k ∈ s.1
    · rw [if_pos hm]
      refine ⟨?_, h2⟩
      simp only [List.length_cons]
      have := length_removeKeyK s.1 k hm
      omega
    · rw [if_neg hm]
      exact ⟨h1, h2⟩
  | pop k =>
    simp only [keysStep]
    by_cases hm : k ∈ s.1
    · rw [if_pos hm]
      refine ⟨?_, h2⟩
      show (removeKeyK s.1 k).length ≤ s.2
      have := length_removeKeyK s.1 k hm
      omega
    · rw [if_neg hm]
      exact ⟨h1, h2⟩
  | popEntry k =>
    simp only [keysStep]
    by_cases hm : k ∈ s.1
    · rw [if_pos hm]
      refine ⟨?_, h2⟩
      show (removeKeyK s.1 k).length ≤ s.2
      have := length_removeKeyK s.1 k hm
      omega
    · rw [if_neg hm]
      exact ⟨h1, h2⟩
  | popLast =>
    refine ⟨?_, h2⟩
    simp only [keysStep, List.length_dropLast]
    omega
  | demote k =>
    simp only [keysStep]
    by_cases hm : k ∈ s.1
    · rw [if_pos hm]
      refine ⟨?_, h2⟩
      rw [List.length_append]
      have := length_removeKeyK s.1 k hm
      simp only [List.length_cons, List.length_nil]
      omega
    · rw [if_neg hm]
      exact ⟨h1, h2⟩
  | resize n =>
    simp only [keysStep, opValid] at hop ⊢
    by_cases he : n = s.2
    · rw [if_pos he]
      exact ⟨h1, h2⟩
    · rw [if_neg he]
      exact ⟨List.length_take_le _ _, hop⟩
  | clear =>
    refine ⟨?_, h2⟩
    simp [keysStep]

theorem step_invariant (c : LRUCache K V) (op : Op K V)
    (h1 : c.len ≤ c.cap) (h2 : 0 < c.cap) (hop : opValid op) :
    (step c op).len ≤ (step c op).cap ∧ 0 < (step c op).cap := by
  have hs := keys_sim c op
  have e1 : keyOrder (step c op) = (keysStep (keyOrder c, c.cap) op).1 :=
    congrArg Prod.fst hs
  have e2 : (step c op).cap = (keysStep (keyOrder c, c.cap) op).2 :=
    congrArg Prod.snd hs
  have habs := keysStep_invariant (keyOrder c, c.cap) op
    (by simpa [keyOrder, length_keysOf, LRUCache.len] using h1) h2 hop
  constructor
  · have hlen : (step c op).len = (keyOrder (step c op)).length :=
      (length_keysOf _).symm
    rw [hlen, e1, e2]
    exact habs.1
  · rw [e2]
    exact habs.2

theorem runOps_invariant (ops : List (Op K V)) (c : LRUCache K V)
    (h1 : c.len ≤ c.cap) (h2 : 0 < c.cap) (hops : ∀ op ∈ ops, opValid op) :
    (runOps c ops).len ≤ (runOps c ops).cap ∧ 0 < (runOps c ops).cap := by
  induction ops generalizing c with
  | nil => exact ⟨h1, h2⟩
  | cons op ops ih =>
    have hone := step_invariant c op h1 h2 (hops op (List.mem_cons_self op ops))
    exact ih (step c op) hone.1 hone.2
      (fun o ho => hops o (List.mem_cons_of_mem op ho))

/-! Iterator lemmas. -/

theorem iterAux_self (l : List (K × V)) : iterAux l.length ⟨l.length, l⟩ = l := by
  induction l with
  | nil => rfl
  | cons p ps ih =>
    simp only [List.length_cons, iterAux, Iter.next]
    rw [if_neg (Nat.succ_ne_zero _)]
    simpa using ih

theorem iterList_eq (c : LRUCache K V) : iterList c = c.list :=
  iterAux_self c.list

theorem intoIterAux_reverse (n : Nat) :
    ∀ c : LRUCache K V, c.list.length ≤ n → intoIterAux n ⟨c⟩ = c.list.reverse := by
  induction n with
  | zero =>
    intro c h
    have hl : c.list = [] := List.eq_nil_of_length_eq_zero (Nat.le_zero.mp h)
    simp [intoIterAux, hl]
  | succ n ih =>
    intro c h
    simp only [intoIterAux, IntoIterC.next, LRUCache.pop_last]
    cases hg : c.list.getLast? with
    | none =>
      have hl : c.list = [] := List.getLast?_eq_none_iff.1 hg
      simp [hl]
    | some p =>
      have hne : c.list ≠ [] := by
        intro he
        rw [he] at hg
        exact Option.noConfusion hg
      simp only
      rw [ih { c with list := c.list.dropLast }
        (by simp only [List.length_dropLast]; omega)]
      have hp : p = c.list.getLast hne := by
        rw [List.getLast?_eq_getLast _ hne] at hg
        exact (Option.some.inj hg).symm
      rw [hp]
      conv_rhs => rw [← List.dropLast_append_getLast hne]
      rw [List.reverse_append]
      simp

theorem intoIterList_eq (c : LRUCache K V) : intoIterList c = c.list.reverse :=
  intoIterAux_reverse c.list.length c le_rfl

theorem pop_last_none_fix (c : LRUCache K V) (h : c.pop_last.1 = none) :
    c.pop_last = (none, c) := by
  unfold LRUCache.pop_last at h ⊢
  cases hg : c.list.getLast? with
  | some p =>
    rw [hg] at h
    exact Option.noConfusion h
  | none => rfl

theorem intoIter_next_fused (it : IntoIterC K V) (h : it.next.1 = none) :
    it.next = (none, it) := by
  have hp : it.cache.pop_last = (none, it.cache) := pop_last_none_fix _ h
  show (it.cache.pop_last.1, IntoIterC.mk it.cache.pop_last.2) = (none, it)
  rw [hp]

theorem iter_next_fused (it : Iter K V) (h : it.next.1 = none) :
    it.next = (none, it) := by
  unfold Iter.next at h ⊢
  by_cases hl : it.len = 0
  · rw [if_pos hl]
  · rw [if_neg hl] at h ⊢
    cases he : it.elems with
    | nil => rfl
    | cons p ps =>
      rw [he] at h
      exact Option.noConfusion h

/-! List lemmas for demote and promote. -/

theorem not_mem_keysOf_removeKey (l : List (K × V)) (k : K)
    (h : (keysOf l).Nodup) : k ∉ keysOf (removeKey l k) := by
  induction l with
  | nil => simp [removeKey, keysOf]
  | cons p ps ih =>
    rw [keysOf_cons, List.nodup_cons] at h
    simp only [removeKey]
    by_cases hp : p.1 = k
    · rw [if_pos hp]
      intro hm
      exact h.1 (hp ▸ hm)
    · rw [if_neg hp]
      rw [keysOf_cons]
      intro hm
      rcases List.mem_cons.1 hm with h1 | h1
      · exact hp h1.symm
      · exact ih h.2 h1

theorem lookupVal_append_right (l1 l2 : List (K × V)) (k : K)
    (h : k ∉ keysOf l1) : lookupVal (l1 ++ l2) k = lookupVal l2 k := by
  induction l1 with
  | nil => rfl
  | cons p ps ih =>
    rw [keysOf_cons] at h
    have hp : ¬p.1 = k := by
      intro he
      exact h (he ▸ List.mem_cons_self _ _)
    simp only [List.cons_append, lookupVal, if_neg hp]
    exact ih (fun hm => h (List.mem_cons_of_mem _ hm))

theorem removeKey_append_right (l1 l2 : List (K × V)) (k : K)
    (h : k ∉ keysOf l1) : removeKey (l1 ++ l2) k = l1 ++ removeKey l2 k := by
  induction l1 with
  | nil => rfl
  | cons p ps ih =>
    rw [keysOf_cons] at h
    have hp : ¬p.1 = k := by
      intro he
      exact h (he ▸ List.mem_cons_self _ _)
    simp only [List.cons_append, removeKey, if_neg hp]
    show p :: removeKey (ps ++ l2) k = p :: (ps ++ removeKey l2 k)
    rw [ih (fun hm => h (List.mem_cons_of_mem _ hm))]

/-! Characterizations of capturing_put in the three miss situations and on a
hit. -/

theorem capturing_put_hit (c : LRUCache K V) (k : K) (v v0 : V) (b : Bool)
    (hlk : lookupVal c.list k = some v0) :
    c.capturing_put k v b =
      (some (k, v0), { c with list := (k, v) :: removeKey c.list k }) := by
  unfold LRUCache.capturing_put
  rw [hlk]

theorem capturing_put_full_miss (c : LRUCache K V) (k : K) (v : V) (b : Bool)
    (hfl : c.list.length = c.cap) (hne : c.list ≠ [])
    (hlk : lookupVal c.list k = none) :
    c.capturing_put k v b =
      ((if b then some (c.list.getLast hne) else none),
       { c with list := (k, v) :: c.list.dropLast }) := by
  unfold LRUCache.capturing_put
  rw [hlk, if_pos hfl, List.getLast?_eq_getLast _ hne]

theorem capturing_put_empty_miss (c : LRUCache K V) (k : K) (v : V) (b : Bool)
    (hfl : c.list.length = c.cap) (he : c.list = [])
    (hlk : lookupVal c.list k = none) :
    c.capturing_put k v b = (none, { c with list := [(k, v)] }) := by
  unfold LRUCache.capturing_put
  rw [hlk, if_pos hfl, he]
  rfl

theorem capturing_put_notfull_miss (c : LRUCache K V) (k : K) (v : V) (b : Bool)
    (hfl : ¬c.list.length = c.cap) (hlk : lookupVal c.list k = none) :
    c.capturing_put k v b = (none, { c with list := (k, v) :: c.list }) := by
  unfold LRUCache.capturing_put
  rw [hlk, if_neg hfl]

theorem put_full_miss (c : LRUCache K V) (k : K) (v : V)
    (hfl : c.list.length = c.cap) (hne : c.list ≠ [])
    (hlk : lookupVal c.list k = none) :
    c.put k v = (none, { c with list := (k, v) :: c.list.dropLast }) := by
  unfold LRUCache.put
  rw [capturing_put_full_miss c k v false hfl hne hlk]
  rfl

theorem push_full_miss (c : LRUCache K V) (k : K) (v : V)
    (hfl : c.list.length = c.cap) (hne : c.list ≠ [])
    (hlk : lookupVal c.list k = none) :
    c.push k v = (some (c.list.getLast hne),
      { c with list := (k, v) :: c.list.dropLast }) := by
  unfold LRUCache.push
  rw [capturing_put_full_miss c k v true hfl hne hlk]
  rfl

theorem put_empty_miss (c : LRUCache K V) (k : K) (v : V)
    (hfl : c.list.length = c.cap) (he : c.list = [])
    (hlk : lookupVal c.list k = none) :
    c.put k v = (none, { c with list := [(k, v)] }) := by
  unfold LRUCache.put
  rw [capturing_put_empty_miss c k v false hfl he hlk]
  rfl

theorem put_notfull_miss (c : LRUCache K V) (k : K) (v : V)
    (hfl : ¬c.list.length = c.cap) (hlk : lookupVal c.list k = none) :
    c.put k v = (none, { c with list := (k, v) :: c.list }) := by
  unfold LRUCache.put
  rw [capturing_put_notfull_miss c k v false hfl hlk]
  rfl

/-! Claim theorems. -/

/-- Sample full cache used by the concrete witnesses: two entries, capacity
two, least recently used entry (2, 20). -/
def sampleFull : LRUCache Nat Nat := { list := [(1, 10), (2, 20)], cap := 2 }

/-- C1: when len = cap (cap a NonZeroUsize value) and key k is absent,
inserting (k, v) through put or push evicts exactly the entry that peek_last
returned just before the call: the resulting list is (k, v) followed by all
prior entries except the last, so every other entry remains, and push
returns precisely the peek_last entry. -/
theorem lru_eviction_evicts_peek_last (c : LRUCache K V) (k : K) (v : V)
    (hfull : c.len = c.cap) (hpos : 0 < c.cap) (hmiss : c.peek k = none) :
    (c.push k v).1 = c.peek_last ∧
    (c.push k v).2.list = (k, v) :: c.list.dropLast ∧
    (c.put k v).2.list = (k, v) :: c.list.dropLast := by
  have hfl : c.list.length = c.cap := hfull
  have hne : c.list ≠ [] := by
    intro he
    rw [he] at hfl
    simp only [List.length_nil] at hfl
    omega
  have hlk : lookupVal c.list k = none := hmiss
  refine ⟨?_, ?_, ?_⟩
  · rw [push_full_miss c k v hfl hne hlk]
    unfold LRUCache.peek_last
    rw [List.getLast?_eq_getLast _ hne]
  · rw [push_full_miss c k v hfl hne hlk]
  · rw [put_full_miss c k v hfl hne hlk]

/-- Witness for C1 on the sample full cache. -/
theorem lru_eviction_evicts_peek_last_witness :
    (sampleFull.push 3 30).1 = sampleFull.peek_last ∧
    (sampleFull.push 3 30).2.list = (3, 30) :: sampleFull.list.dropLast ∧
    (sampleFull.put 3 30).2.list = (3, 30) :: sampleFull.list.dropLast :=
  lru_eviction_evicts_peek_last sampleFull 3 30 (by decide) (by decide) (by decide)

/-- C2: starting from any of the constructors new, unbounded or with_hasher
with a positive capacity, the invariant len less-or-equal cap holds after
every prefix of any sequence of public operations whose resize arguments are
positive. -/
theorem size_bound_invariant (cap : Nat) (pre suf : List (Op K V))
    (hcap : 0 < cap) (hops : ∀ op ∈ pre ++ suf, opValid op) :
    (runOps (LRUCache.new cap) pre).len ≤ (runOps (LRUCache.new cap) pre).cap ∧
    (runOps (LRUCache.unbounded : LRUCache K V) pre).len ≤
      (runOps (LRUCache.unbounded : LRUCache K V) pre).cap ∧
    (runOps (LRUCache.with_hasher cap) pre).len ≤
      (runOps (LRUCache.with_hasher cap) pre).cap := by
  have hpre : ∀ op ∈ pre, opValid op :=
    fun op ho => hops op (List.mem_append_left _ ho)
  refine ⟨?_, ?_, ?_⟩
  · exact (runOps_invariant pre (LRUCache.new cap) (Nat.zero_le _) hcap hpre).1
  · exact (runOps_invariant pre LRUCache.unbounded (Nat.zero_le _)
      (by show 0 < USIZE_MAX; norm_num [USIZE_MAX]) hpre).1
  · exact (runOps_invariant pre (LRUCache.with_hasher cap) (Nat.zero_le _)
      hcap hpre).1

/-- Witness for C2 with capacity one and a concrete operation prefix. -/
theorem size_bound_invariant_witness :
    (runOps (LRUCache.new 1) [Op.put (0 : Nat) (0 : Nat)]).len ≤
      (runOps (LRUCache.new 1) [Op.put (0 : Nat) (0 : Nat)]).cap ∧
    (runOps (LRUCache.unbounded : LRUCache Nat Nat) [Op.put 0 0]).len ≤
      (runOps (LRUCache.unbounded : LRUCache Nat Nat) [Op.put 0 0]).cap ∧
    (runOps (LRUCache.with_hasher 1) [Op.put (0 : Nat) (0 : Nat)]).len ≤
      (runOps (LRUCache.with_hasher 1) [Op.put (0 : Nat) (0 : Nat)]).cap :=
  size_bound_invariant 1 [Op.put 0 0] [Op.resize 2] (by decide)
    (by
      intro op ho
      rcases List.mem_cons.1 ho with h | h
      · subst h; trivial
      · rcases List.mem_cons.1 h with h1 | h1
        · subst h1; exact Nat.zero_lt_succ _
        · exact absurd h1 (List.not_mem_nil op))

/-- C3 counterexample: on a full cache with an absent key, put does not
return the evicted value: it returns none, although the evicted entry
(2, 20) had value 20. -/
theorem put_capacity_eviction_returns_value_cex :
    sampleFull.len = sampleFull.cap ∧
    sampleFull.peek 3 = none ∧
    sampleFull.peek_last = some (2, 20) ∧
    (sampleFull.put 3 30).1 = none ∧
    (sampleFull.put 3 30).1 ≠ some 20 := by
  decide

/-- C3 amended: on a full cache with an absent key, put recycles the
tail-adjacent node, attaching (k, v) at the front and dropping the prior
tail entry; the evicted value is dropped, put returns none, and push is the
variant that returns the evicted entry. -/
theorem put_recycles_tail_returns_none (c : LRUCache K V) (k : K) (v : V)
    (hfull : c.len = c.cap) (hpos : 0 < c.cap) (hmiss : c.peek k = none) :
    (c.put k v).2.list = (k, v) :: c.list.dropLast ∧
    (c.put k v).1 = none ∧
    (c.push k v).1 = c.peek_last := by
  have hfl : c.list.length = c.cap := hfull
  have hne : c.list ≠ [] := by
    intro he
    rw [he] at hfl
    simp only [List.length_nil] at hfl
    omega
  have hlk : lookupVal c.list k = none := hmiss
  refine ⟨?_, ?_, ?_⟩
  · rw [put_full_miss c k v hfl hne hlk]
  · rw [put_full_miss c k v hfl hne hlk]
  · rw [push_full_miss c k v hfl hne hlk]
    unfold LRUCache.peek_last
    rw [List.getLast?_eq_getLast _ hne]

/-- Witness for the amended C3 on the sample full cache. -/
theorem put_recycles_tail_returns_none_witness :
    (sampleFull.put 3 30).2.list = (3, 30) :: sampleFull.list.dropLast ∧
    (sampleFull.put 3 30).1 = none ∧
    (sampleFull.push 3 30).1 = sampleFull.peek_last :=
  put_recycles_tail_returns_none sampleFull 3 30 (by decide) (by decide) (by decide)

/-- C4: peek, peek_mut, contains and peek_last leave the cache state
unchanged (a write through the reference returned by peek_mut changes only
the stored value), so interleaving any number of these observations anywhere
into an operation sequence yields the same final recency order of keys as
running the mutating operations alone. -/
theorem peek_non_interference (c : LRUCache K V) (steps : List (Step K V)) (k : K) :
    keyOrder (runSteps c steps) = keyOrder (runOps c (mutsOf steps)) ∧
    readStep c (ReadOp.peek k) = c ∧
    readStep c (ReadOp.peekMut k) = c ∧
    readStep c (ReadOp.contains k) = c ∧
    readStep c ReadOp.peekLast = c := by
  refine ⟨?_, rfl, rfl, rfl, rfl⟩
  have h1 := runSteps_keys steps c
  have h2 := runOps_keys (mutsOf steps) c
  exact congrArg Prod.fst (h1.trans h2.symm)

/-- C5: get_or_insert promotes and returns the existing value without
invoking the factory when the key is present (the factory state s is
untouched for every factory f); when the key is absent it invokes the
factory exactly once (the state advances exactly to (f s).2), inserts the
produced value with the same eviction policy as put, returns that value, and
any evicted entry is dropped, not returned. -/
theorem get_or_insert_factory_spec {S : Type} (c : LRUCache K V) (k : K)
    (f : S → V × S) (s : S) :
    (∀ v, c.peek k = some v → c.get_or_insert k f s = (v, c.promote k, s)) ∧
    (c.peek k = none →
      c.get_or_insert k f s = ((f s).1, (c.put k (f s).1).2, (f s).2)) := by
  constructor
  · intro v hv
    have hlk : lookupVal c.list k = some v := hv
    unfold LRUCache.get_or_insert LRUCache.promote
    rw [hlk]
  · intro hv
    have hlk : lookupVal c.list k = none := hv
    unfold LRUCache.get_or_insert
    rw [hlk]
    by_cases hl : c.list.length = c.cap
    · by_cases hne : c.list = []
      · rw [if_pos hl, put_empty_miss c k (f s).1 hl hne hlk, hne]
        rfl
      · rw [if_pos hl, List.getLast?_eq_getLast _ hne,
            put_full_miss c k (f s).1 hl hne hlk]
    · rw [if_neg hl, put_notfull_miss c k (f s).1 hl hlk]

/-- Witness for C5: a hit does not advance the counting factory, a miss
advances it exactly once. -/
theorem get_or_insert_factory_spec_witness :
    (LRUCache.get_or_insert { list := [(1, 5)], cap := 2 } 1
      (fun n : Nat => (7, n + 1)) 0 =
      (5, LRUCache.promote { list := [(1, 5)], cap := 2 } 1, 0)) ∧
    (LRUCache.get_or_insert { list := [(1, 5)], cap := 2 } 2
      (fun n : Nat => (7, n + 1)) 0 =
      (7, (LRUCache.put { list := [(1, 5)], cap := 2 } 2 7).2, 1)) :=
  ⟨(get_or_insert_factory_spec { list := [(1, 5)], cap := 2 } 1
      (fun n : Nat => (7, n + 1)) 0).1 5 (by decide),
   (get_or_insert_factory_spec { list := [(1, 5)], cap := 2 } 2
      (fun n : Nat => (7, n + 1)) 0).2 (by decide)⟩

/-- C6: resize is a no-op when the new capacity equals the current one;
otherwise it sets cap to the new capacity and retains exactly the
min(len, c) most recently used entries in their prior MRU-first order, so
len fits under the new capacity (growing retains everything). -/
theorem resize_spec (c : LRUCache K V) (n : Nat) :
    (n = c.cap → c.resize n = c) ∧
    (n ≠ c.cap →
      (c.resize n).cap = n ∧
      (c.resize n).list = c.list.take n ∧
      (c.resize n).len ≤ n) := by
  constructor
  · intro h
    unfold LRUCache.resize
    rw [if_pos h]
  · intro h
    unfold LRUCache.resize
    rw [if_neg h]
    refine ⟨rfl, popWhileGT_eq_take _ _, ?_⟩
    show (popWhileGT c.list n).length ≤ n
    rw [popWhileGT_eq_take]
    exact List.length_take_le _ _

/-- Witness for C6: a no-op resize and a shrinking resize on the sample
cache. -/
theorem resize_spec_witness :
    (sampleFull.resize 2 = sampleFull) ∧
    ((sampleFull.resize 1).cap = 1 ∧
     (sampleFull.resize 1).list = sampleFull.list.take 1 ∧
     (sampleFull.resize 1).len ≤ 1) :=
  ⟨(resize_spec sampleFull 2).1 (by decide),
   (resize_spec sampleFull 1).2 (by decide)⟩

/-- C7: the by-move iterator, each step of which is a pop_last call, yields
the entries in LRU-first order, exactly the reverse of the forward
iterator's MRU-first sequence, and both iterators are fused: a call that
returns nothing leaves the iterator in a state from which every subsequent
call returns nothing. -/
theorem into_iter_reverse_of_iter (c : LRUCache K V) :
    intoIterList c = (iterList c).reverse ∧
    (∀ it : IntoIterC K V, it.next.1 = none → it.next = (none, it)) ∧
    (∀ it : Iter K V, it.next.1 = none → it.next = (none, it)) := by
  refine ⟨?_, intoIter_next_fused, iter_next_fused⟩
  rw [intoIterList_eq, iterList_eq]

/-- Witness for C7 on the sample cache and on exhausted iterators. -/
theorem into_iter_reverse_of_iter_witness :
    intoIterList sampleFull = (iterList sampleFull).reverse ∧
    IntoIterC.next (⟨{ list := [], cap := 2 }⟩ : IntoIterC Nat Nat) =
      (none, ⟨{ list := [], cap := 2 }⟩) ∧
    Iter.next (⟨0, []⟩ : Iter Nat Nat) = (none, ⟨0, []⟩) :=
  ⟨(into_iter_reverse_of_iter sampleFull).1,
   (into_iter_reverse_of_iter sampleFull).2.1 ⟨{ list := [], cap := 2 }⟩ (by decide),
   (into_iter_reverse_of_iter sampleFull).2.2 ⟨0, []⟩ (by decide)⟩

/-- C8 counterexample: demote then promote of the middle key 2 of a
three-entry cache does not restore the pre-demote state: promote always
moves the key to the MRU position, not back to its prior position. -/
theorem demote_promote_restores_cex :
    ((({ list := [(3, 30), (2, 20), (1, 10)], cap := 3 } :
        LRUCache Nat Nat).demote 2).promote 2) ≠
      ({ list := [(3, 30), (2, 20), (1, 10)], cap := 3 } : LRUCache Nat Nat) := by
  decide

/-- C8 amended: for a present key k (key order without duplicates), demote
followed by promote with no mutation in between equals promote alone, i.e.
it moves k to the MRU position; the pre-demote state is restored exactly in
the case that k already was the MRU entry. -/
theorem demote_promote_moves_to_mru (c : LRUCache K V) (k : K) (v : V)
    (hnodup : (keysOf c.list).Nodup) (hk : lookupVal c.list k = some v) :
    ((c.demote k).promote k) = c.promote k ∧
    (∀ t, c.list = (k, v) :: t → (c.demote k).promote k = c) := by
  have hnm : k ∉ keysOf (removeKey c.list k) :=
    not_mem_keysOf_removeKey c.list k hnodup
  have hlook : lookupVal (removeKey c.list k ++ [(k, v)]) k = some v := by
    rw [lookupVal_append_right _ _ _ hnm]
    simp [lookupVal]
  have hrem : removeKey (removeKey c.list k ++ [(k, v)]) k = removeKey c.list k := by
    rw [removeKey_append_right _ _ _ hnm]
    simp [removeKey]
  have hd : c.demote k = { c with list := removeKey c.list k ++ [(k, v)] } := by
    unfold LRUCache.demote
    rw [hk]
  have hmain : (c.demote k).promote k = { c with list := (k, v) :: removeKey c.list k } := by
    rw [hd]
    unfold LRUCache.promote
    simp only [hlook, hrem]
  constructor
  · rw [hmain]
    unfold LRUCache.promote
    rw [hk]
  · intro t ht
    rw [hmain]
    have hrk : removeKey c.list k = t := by
      rw [ht]
      simp [removeKey]
    rw [hrk, ← ht]

/-- Witness for the amended C8: key 3 is the MRU entry of the sample cache
extended, so demote then promote restores the state; for the present key,
demote then promote equals promote. -/
theorem demote_promote_moves_to_mru_witness :
    ((({ list := [(3, 30), (1, 10)], cap := 3 } : LRUCache Nat Nat).demote 3).promote 3 =
      ({ list := [(3, 30), (1, 10)], cap := 3 } : LRUCache Nat Nat).promote 3) ∧
    (({ list := [(3, 30), (1, 10)], cap := 3 } : LRUCache Nat Nat).demote 3).promote 3 =
      ({ list := [(3, 30), (1, 10)], cap := 3 } : LRUCache Nat Nat) :=
  ⟨(demote_promote_moves_to_mru { list := [(3, 30), (1, 10)], cap := 3 } 3 30
      (by decide) (by decide)).1,
   (demote_promote_moves_to_mru { list := [(3, 30), (1, 10)], cap := 3 } 3 30
      (by decide) (by decide)).2 [(1, 10)] (by decide)⟩

/-- C9: the capacity cache_mode builds a cache that is identical, as a
state, to the item cache_mode with the same cache_size, and therefore every
sequence of operations (uploads perform put, downloads perform get) produces
identical states and responses. -/
theorem capacity_mode_equals_item_mode (size : Nat) (ops : List (Op K V)) :
    (selectCache "capacity" size : LRUCache K V) = selectCache "item" size ∧
    runOps (selectCache "capacity" size : LRUCache K V) ops =
      runOps (selectCache "item" size) ops :=
  ⟨rfl, rfl⟩

/-- C10: put on an absent key always returns none, even when the insertion
evicts the least recently used entry on a full cache; push is the insert
variant that surfaces the evicted pair, returning the peek_last entry
exactly when the cache is full. -/
theorem put_returns_none_push_surfaces (c : LRUCache K V) (k : K) (v : V)
    (hmiss : c.peek k = none) :
    (c.put k v).1 = none ∧
    (c.push k v).1 = (if c.len = c.cap then c.peek_last else none) := by
  have hlk : lookupVal c.list k = none := hmiss
  by_cases hl : c.list.length = c.cap
  · have hlen : c.len = c.cap := hl
    by_cases hne : c.list = []
    · have h1 := put_empty_miss c k v hl hne hlk
      have h2 := capturing_put_empty_miss c k v true hl hne hlk
      have h2p : c.push k v = (none, { c with list := [(k, v)] }) := h2
      rw [h1, h2p, if_pos hlen]
      refine ⟨rfl, ?_⟩
      unfold LRUCache.peek_last
      rw [hne]
      rfl
    · have h1 := put_full_miss c k v hl hne hlk
      have h2 := push_full_miss c k v hl hne hlk
      rw [h1, h2, if_pos hlen]
      refine ⟨rfl, ?_⟩
      unfold LRUCache.peek_last
      rw [List.getLast?_eq_getLast _ hne]
  · have hlen : ¬c.len = c.cap := hl
    have h1 := put_notfull_miss c k v hl hlk
    have h2 := capturing_put_notfull_miss c k v true hl hlk
    have h2p : c.push k v = (none, { c with list := (k, v) :: c.list }) := h2
    rw [h1, h2p, if_neg hlen]
    exact ⟨rfl, rfl⟩

/-- Witness for C10 on the sample full cache. -/
theorem put_returns_none_push_surfaces_witness :
    (sampleFull.put 3 30).1 = none ∧
    (sampleFull.push 3 30).1 =
      (if sampleFull.len = sampleFull.cap then sampleFull.peek_last else none) :=
  put_returns_none_push_surfaces sampleFull 3 30 (by decide)

end LRUSpec
